import Mathlib

/-!
Shallow embedding of the MNIST single-layer classifier core in `src/main.c`.

Machine doubles are modelled as rationals, pixel values as naturals, and the
fixed C arrays as lists whose lengths are carried by hypotheses.  The per-cell
forward loop (main.c lines 84-92 in `trainLayer`, 170-177 in `testLayer`) is
`computeCell`, the weight-update loop (lines 94-101) is `updateCell`, and the
two drivers are `trainLayer` / `testLayer` as folds over the sample sequence.
`getLayerPrediction` and `getTargetOutput` are declared in headers and defined
in `1lnn.c`, which is not part of `src/`; they are modelled from the spec.
-/

namespace Mnist1lnn

/-- A classifier cell: the cached binarized input, the weight vector of length
N, and the scalar output, mirroring the `Cell` record the code manipulates
through `l->cell[i].input`, `l->cell[i].weight` and `l->cell[i].output`. -/
structure Cell where
  input : List ℚ
  weight : List ℚ
  output : ℚ
deriving Repr, DecidableEq

/-- The layer owns one cell per output class (`l->cell[i]`). -/
structure Layer where
  cell : List Cell
deriving Repr, DecidableEq

/-- One (image, label) pair as consumed per loop iteration. -/
structure Sample where
  pixel : List ℕ
  lbl : ℕ
deriving Repr, DecidableEq

/-- Binarization of an image, `l->cell[i].input[j] = img.pixel[j] ? 1 : 0;`
(main.c line 87 and line 173). -/
def binarize (pixel : List ℕ) : List ℚ :=
  pixel.map (fun p => if p ≠ 0 then 1 else 0)

/-- The accumulation `if (l->cell[i].input[j]) c_output += l->cell[i].weight[j];`
of main.c lines 86-90 (resp. 172-176), walking the binarized input and the
weight vector in lockstep. -/
def binarizedSum : List ℚ → List ℚ → ℚ
  | [], _ => 0
  | _ :: _, [] => 0
  | x :: xs, w :: ws => (if x ≠ 0 then w else 0) + binarizedSum xs ws

/-- Per-cell forward computation, main.c lines 84-92 (identical in `testLayer`,
lines 170-177): binarize the image into the cell's cached input and set
`output = c_output / NUMBER_OF_INPUT_CELLS` where `n` is the feature count. -/
def computeCell (n : ℕ) (img : List ℕ) (c : Cell) : Cell :=
  { input := binarize img
    weight := c.weight
    output := binarizedSum (binarize img) c.weight / (n : ℚ) }

/-- The weight loop of main.c lines 98-101:
`if (l->cell[i].input[j]) l->cell[i].weight[j] += temp;`. -/
def updateWeights (temp : ℚ) : List ℚ → List ℚ → List ℚ
  | [], ws => ws
  | _ :: _, [] => []
  | x :: xs, w :: ws => (if x ≠ 0 then w + temp else w) :: updateWeights temp xs ws

/-- The training update of main.c lines 94-101: `err = target - output`,
`temp = err * LEARNING_RATE`, then add `temp` at every active input index. -/
def updateCell (target lrate : ℚ) (c : Cell) : Cell :=
  { c with weight := updateWeights ((target - c.output) * lrate) c.input c.weight }

/-- Modelled from the spec: `getTargetOutput` is defined in `1lnn.c`, which is
not under `src/`.  Per §4.1 the Target Encoder produces a vector of length C
with a 1.0 at index `label` and 0.0 elsewhere. -/
def getTargetOutput (c lbl : ℕ) : List ℚ :=
  (List.range c).map (fun i => if i = lbl then 1 else 0)

/-- The scan keeping the first maximum found, running index `i` with current
best index `maxInd` of value `maxOut`. -/
def predictScan : List ℚ → ℕ → ℕ → ℚ → ℕ
  | [], _, maxInd, _ => maxInd
  | o :: os, i, maxInd, maxOut =>
    if maxOut < o then predictScan os (i + 1) i o
    else predictScan os (i + 1) maxInd maxOut

/-- Modelled from the spec: `getLayerPrediction` is defined in `1lnn.c`, which
is not under `src/`.  Per §4.2 it returns the index of the cell with the
maximum output, scanning indices 0..C-1 and keeping the first maximum found. -/
def getLayerPrediction (l : Layer) : ℕ :=
  match l.cell.map Cell.output with
  | [] => 0
  | o :: os => predictScan os 1 0 o

/-- The per-cell training loop of main.c lines 82-103: for each cell `i`,
forward computation followed by the update against `targetOutput.val[i]`. -/
def trainCells (n : ℕ) (lrate : ℚ) (img : List ℕ) : List Cell → List ℚ → List Cell
  | [], _ => []
  | _ :: _, [] => []
  | c :: cs, t :: ts =>
    updateCell t lrate (computeCell n img c) :: trainCells n lrate img cs ts

/-- One training iteration's effect on the layer (main.c lines 68-103). -/
def trainSample (n : ℕ) (lrate : ℚ) (s : Sample) (l : Layer) : Layer :=
  { cell := trainCells n lrate s.pixel l.cell (getTargetOutput l.cell.length s.lbl) }

/-- One evaluation iteration's effect on the layer (main.c lines 168-178):
forward computation only, no update. -/
def testSample (n : ℕ) (s : Sample) (l : Layer) : Layer :=
  { cell := l.cell.map (computeCell n s.pixel) }

/-- One training iteration including the error bookkeeping of main.c
lines 106-107: predict on the freshly computed outputs and bump `errCount`
on mismatch with the label. -/
def trainStep (n : ℕ) (lrate : ℚ) (st : Layer × ℕ) (s : Sample) : Layer × ℕ :=
  (trainSample n lrate s st.1,
   if getLayerPrediction (trainSample n lrate s st.1) ≠ s.lbl then st.2 + 1 else st.2)

/-- The training driver `trainLayer` (main.c lines 45-125) over an explicit
sample list, returning the final layer and `errCount`. -/
def trainLayer (n : ℕ) (lrate : ℚ) (samples : List Sample) (l : Layer) : Layer × ℕ :=
  samples.foldl (trainStep n lrate) (l, 0)

/-- One evaluation iteration including the error bookkeeping of main.c
lines 180-181. -/
def testStep (n : ℕ) (st : Layer × ℕ) (s : Sample) : Layer × ℕ :=
  (testSample n s st.1,
   if getLayerPrediction (testSample n s st.1) ≠ s.lbl then st.2 + 1 else st.2)

/-- The evaluation driver `testLayer` (main.c lines 136-200) over an explicit
sample list, returning the final layer and `errCount`. -/
def testLayer (n : ℕ) (samples : List Sample) (l : Layer) : Layer × ℕ :=
  samples.foldl (testStep n) (l, 0)

/-- The reported success rate, `100.0 - (double)errCount/(double)T*100`
(main.c lines 118 and 191). -/
def successRate (errCount total : ℕ) : ℚ :=
  100 - (errCount : ℚ) / (total : ℚ) * 100

/-- Integer sign of a rational. -/
def sgn (q : ℚ) : ℤ :=
  if 0 < q then 1 else if q < 0 then -1 else 0

/-! ### Helper lemmas -/

/-- An in-range `getD` access is a member of the list. -/
lemma getD_mem_of_lt {α : Type} (xs : List α) (j : ℕ) (d : α) (h : j < xs.length) :
    xs.getD j d ∈ xs := by
  induction xs generalizing j with
  | nil => simp at h
  | cons x xs ih =>
    cases j with
    | zero => simp
    | succ j =>
      simp only [List.getD_cons_succ]
      exact List.mem_cons_of_mem _ (ih j (by simpa using h))

/-- Pointwise description of `binarize`: nonzero pixels map to 1, zero (and
out-of-range reads) to 0. -/
lemma binarize_getD (img : List ℕ) (j : ℕ) :
    (binarize img).getD j 0 = if img.getD j 0 ≠ 0 then 1 else 0 := by
  induction img generalizing j with
  | nil => simp [binarize]
  | cons p ps ih =>
    cases j with
    | zero => simp [binarize]
    | succ j => simpa [binarize] using ih j

/-- The accumulated masked sum equals the indexed sum of weights at the
positions whose mask entry is nonzero. -/
lemma binarizedSum_eq_sum (xs : List ℚ) : ∀ ws : List ℚ, xs.length = ws.length →
    binarizedSum xs ws
      = ∑ j ∈ Finset.range xs.length, (if xs.getD j 0 ≠ 0 then ws.getD j 0 else 0) := by
  induction xs with
  | nil => intro ws _; simp [binarizedSum]
  | cons x xs ih =>
    intro ws h
    cases ws with
    | nil => simp at h
    | cons w ws =>
      have h' : xs.length = ws.length := by simpa using h
      simp only [binarizedSum, List.length_cons]
      rw [Finset.sum_range_succ']
      simp only [List.getD_cons_succ, List.getD_cons_zero]
      rw [ih ws h']
      exact add_comm _ _

/-- The masked sum is nonnegative when every weight is nonnegative. -/
lemma binarizedSum_nonneg (xs : List ℚ) : ∀ ws : List ℚ, (∀ w ∈ ws, 0 ≤ w) →
    0 ≤ binarizedSum xs ws := by
  induction xs with
  | nil => intro ws _; simp [binarizedSum]
  | cons x xs ih =>
    intro ws hw
    cases ws with
    | nil => simp [binarizedSum]
    | cons w ws =>
      have h1 : 0 ≤ if x ≠ 0 then w else 0 := by
        by_cases hx : x ≠ 0
        · simpa [hx] using hw w (by simp)
        · simp [hx]
      have h2 : 0 ≤ binarizedSum xs ws := ih ws (fun u hu => hw u (by simp [hu]))
      simpa [binarizedSum] using add_nonneg h1 h2

/-- The masked sum is at most the number of weights when each weight is
below 1 (and nonnegative). -/
lemma binarizedSum_le_length (xs : List ℚ) : ∀ ws : List ℚ,
    (∀ w ∈ ws, 0 ≤ w ∧ w < 1) → binarizedSum xs ws ≤ (ws.length : ℚ) := by
  induction xs with
  | nil => intro ws _; simp [binarizedSum]
  | cons x xs ih =>
    intro ws hw
    cases ws with
    | nil => simp [binarizedSum]
    | cons w ws =>
      have h1 : (if x ≠ 0 then w else 0) ≤ 1 := by
        by_cases hx : x ≠ 0
        · simpa [hx] using le_of_lt (hw w (by simp)).2
        · simp [hx]
      have h2 : binarizedSum xs ws ≤ (ws.length : ℚ) :=
        ih ws (fun u hu => hw u (by simp [hu]))
      have := add_le_add h1 h2
      simpa [binarizedSum, add_comm] using this

/-- `updateWeights` keeps the length of the weight vector. -/
lemma updateWeights_length (temp : ℚ) (xs : List ℚ) : ∀ ws : List ℚ,
    xs.length = ws.length → (updateWeights temp xs ws).length = ws.length := by
  induction xs with
  | nil => intro ws _; simp [updateWeights]
  | cons x xs ih =>
    intro ws h
    cases ws with
    | nil => simp at h
    | cons w ws => simpa [updateWeights] using ih ws (by simpa using h)

/-- Pointwise description of `updateWeights`: `temp` is added exactly at the
indices whose mask entry is nonzero. -/
lemma updateWeights_getD (temp : ℚ) (xs : List ℚ) : ∀ (ws : List ℚ) (j : ℕ),
    xs.length = ws.length →
    (updateWeights temp xs ws).getD j 0
      = if xs.getD j 0 ≠ 0 then ws.getD j 0 + temp else ws.getD j 0 := by
  induction xs with
  | nil =>
    intro ws j h
    have : ws = [] := by simpa using (List.length_eq_zero.mp h.symm)
    subst this
    simp [updateWeights]
  | cons x xs ih =>
    intro ws j h
    cases ws with
    | nil => simp at h
    | cons w ws =>
      cases j with
      | zero => by_cases hx : x ≠ 0 <;> simp [updateWeights, hx]
      | succ j => simpa [updateWeights] using ih ws j (by simpa using h)

/-- `updateCell` does not touch the cached input. -/
lemma updateCell_input (t r : ℚ) (c : Cell) : (updateCell t r c).input = c.input := rfl

/-- `updateCell` does not touch the output field. -/
lemma updateCell_output (t r : ℚ) (c : Cell) : (updateCell t r c).output = c.output := rfl

/-- `computeCell` does not touch the weights. -/
lemma computeCell_weight (n : ℕ) (img : List ℕ) (c : Cell) :
    (computeCell n img c).weight = c.weight := rfl

/-- `getD` through a `map`, with the default mapped as well. -/
lemma getD_map {α β : Type} (f : α → β) (xs : List α) (i : ℕ) (d : α) :
    (xs.map f).getD i (f d) = f (xs.getD i d) := by
  induction xs generalizing i with
  | nil => simp
  | cons x xs ih =>
    cases i with
    | zero => simp
    | succ i => simp [ih i]

/-- One evaluation iteration keeps the per-cell weight vectors. -/
lemma testSample_weights (n : ℕ) (s : Sample) (l : Layer) :
    (testSample n s l).cell.map Cell.weight = l.cell.map Cell.weight := by
  show (l.cell.map (computeCell n s.pixel)).map Cell.weight = l.cell.map Cell.weight
  rw [List.map_map]
  rfl

/-- The evaluation fold keeps the per-cell weight vectors from any start. -/
lemma testFold_weights (n : ℕ) (samples : List Sample) : ∀ st : Layer × ℕ,
    ((samples.foldl (testStep n) st).1).cell.map Cell.weight = st.1.cell.map Cell.weight := by
  induction samples with
  | nil => intro _; rfl
  | cons s ss ih =>
    intro st
    have h1 : (s :: ss).foldl (testStep n) st = ss.foldl (testStep n) (testStep n st s) := rfl
    rw [h1, ih (testStep n st s)]
    exact testSample_weights n s st.1

/-- A fold whose step raises the counter by at most one per sample keeps the
counter within the sample count. -/
lemma foldl_err_bound (f : Layer × ℕ → Sample → Layer × ℕ)
    (hf : ∀ st s, (f st s).2 ≤ st.2 + 1) :
    ∀ (samples : List Sample) (st : Layer × ℕ),
      (samples.foldl f st).2 ≤ st.2 + samples.length := by
  intro samples
  induction samples with
  | nil => intro st; simp
  | cons s ss ih =>
    intro st
    have h1 : (s :: ss).foldl f st = ss.foldl f (f st s) := rfl
    rw [h1]
    calc (ss.foldl f (f st s)).2 ≤ (f st s).2 + ss.length := ih (f st s)
      _ ≤ st.2 + 1 + ss.length := by have := hf st s; omega
      _ = st.2 + (s :: ss).length := by
          simp only [List.length_cons]
          omega

/-- `getLayerPrediction` depends only on the vector of cell outputs. -/
lemma getLayerPrediction_congr (l m : Layer)
    (h : l.cell.map Cell.output = m.cell.map Cell.output) :
    getLayerPrediction l = getLayerPrediction m := by
  unfold getLayerPrediction
  rw [h]

/-- Within one training iteration the cell outputs are those of the pure
forward computation; the update writes no output field. -/
lemma trainCells_outputs (n : ℕ) (lrate : ℚ) (img : List ℕ) :
    ∀ (cs : List Cell) (ts : List ℚ), cs.length = ts.length →
    (trainCells n lrate img cs ts).map Cell.output
      = (cs.map (computeCell n img)).map Cell.output := by
  intro cs
  induction cs with
  | nil => intro ts _; rfl
  | cons c cs ih =>
    intro ts h
    cases ts with
    | nil => simp at h
    | cons t ts =>
      have h' : cs.length = ts.length := by simpa using h
      simp only [trainCells, List.map_cons, updateCell_output]
      rw [ih ts h']

/-- The one-hot target vector has one component per output cell. -/
lemma getTargetOutput_length (c lbl : ℕ) : (getTargetOutput c lbl).length = c := by
  simp [getTargetOutput]

/-- Full characterisation of the first-maximum scan: either the running best
survives because no later value strictly beats it, or the result points at
the first strict improvement, which no other scanned value exceeds. -/
lemma predictScan_spec (os : List ℚ) : ∀ (i mi : ℕ) (mo : ℚ),
    (predictScan os i mi mo = mi ∧ ∀ o ∈ os, o ≤ mo) ∨
    (∃ k, k < os.length ∧ predictScan os i mi mo = i + k ∧ mo < os.getD k 0 ∧
      (∀ j, j < k → os.getD j 0 < os.getD k 0) ∧
      (∀ j, j < os.length → os.getD j 0 ≤ os.getD k 0)) := by
  induction os with
  | nil => intro i mi mo; exact Or.inl ⟨rfl, by simp⟩
  | cons o os ih =>
    intro i mi mo
    by_cases h : mo < o
    · have hps : predictScan (o :: os) i mi mo = predictScan os (i + 1) i o := by
        simp [predictScan, h]
      rcases ih (i + 1) i o with ⟨heq, hle⟩ | ⟨k, hk, heq, hgt, hlt, hle⟩
      · refine Or.inr ⟨0, by simp, by rw [hps, heq]; omega, by simpa using h, ?_, ?_⟩
        · intro j hj
          omega
        · intro j hj
          cases j with
          | zero => simp
          | succ j =>
            simp only [List.getD_cons_succ, List.getD_cons_zero]
            exact hle _ (getD_mem_of_lt os j 0 (by simpa using hj))
      · refine Or.inr ⟨k + 1, by simpa using hk, ?_, ?_, ?_, ?_⟩
        · rw [hps, heq]
          omega
        · simpa using lt_trans h hgt
        · intro j hj
          cases j with
          | zero =>
            simpa using hgt
          | succ j =>
            simp only [List.getD_cons_succ]
            exact hlt j (by omega)
        · intro j hj
          cases j with
          | zero =>
            simpa using le_of_lt hgt
          | succ j =>
            simp only [List.getD_cons_succ]
            exact hle j (by simpa using hj)
    · have hps : predictScan (o :: os) i mi mo = predictScan os (i + 1) mi mo := by
        simp [predictScan, h]
      rcases ih (i + 1) mi mo with ⟨heq, hle⟩ | ⟨k, hk, heq, hgt, hlt, hle⟩
      · refine Or.inl ⟨by rw [hps, heq], ?_⟩
        intro o' ho'
        rcases List.mem_cons.mp ho' with rfl | hmem
        · exact not_lt.mp h
        · exact hle o' hmem
      · refine Or.inr ⟨k + 1, by simpa using hk, ?_, ?_, ?_, ?_⟩
        · rw [hps, heq]
          omega
        · simpa using hgt
        · intro j hj
          cases j with
          | zero =>
            simpa using lt_of_le_of_lt (not_lt.mp h) hgt
          | succ j =>
            simp only [List.getD_cons_succ]
            exact hlt j (by omega)
        · intro j hj
          cases j with
          | zero =>
            simpa using le_of_lt (lt_of_le_of_lt (not_lt.mp h) hgt)
          | succ j =>
            simp only [List.getD_cons_succ]
            exact hle j (by simpa using hj)

/-! ### Concrete data for witnesses -/

/-- The four-pixel image of spec §8, end-to-end scenario 1. -/
def wImg : List ℕ := [1, 0, 1, 0]

/-- Cell 0 of spec §8, end-to-end scenario 1. -/
def wCell : Cell := ⟨[], [1/2, 1/2, 1/2, 1/2], 0⟩

/-- A small concrete cell with one active and one inactive input. -/
def wCellB : Cell := ⟨[1, 0], [3, 5], 2⟩

/-- A small concrete cell whose weights lie in `[0,1)`. -/
def wCellC : Cell := ⟨[], [1/2, 1/4], 0⟩

/-- A single-feature cell with an active input. -/
def wCellD : Cell := ⟨[1], [0], 0⟩

/-- A three-cell layer whose outputs are `1, 3, 3`: the maximum is attained
twice, first at index 1. -/
def wLayer : Layer := ⟨[⟨[], [], 1⟩, ⟨[], [], 3⟩, ⟨[], [], 3⟩]⟩

/-! ### Claim theorems -/

/-- Claim C1: the per-cell forward computation binarizes the image (nonzero
pixel value maps to 1, zero to 0), stores that binarized vector as the cell's
cached input, and sets the output to the sum of the weights at the positions
where the binarized input is 1, divided by the full feature count `n`. -/
theorem computeCell_forward (n : ℕ) (img : List ℕ) (c : Cell)
    (hw : c.weight.length = n) (hi : img.length = n) :
    (computeCell n img c).input.length = n ∧
    (∀ j, j < n → (computeCell n img c).input.getD j 0
        = if img.getD j 0 ≠ 0 then 1 else 0) ∧
    (computeCell n img c).output
      = (∑ j ∈ Finset.range n,
          if (computeCell n img c).input.getD j 0 = 1 then c.weight.getD j 0 else 0)
        / (n : ℚ) := by
  refine ⟨?_, ?_, ?_⟩
  · simp [computeCell, binarize, hi]
  · intro j _
    exact binarize_getD img j
  · show binarizedSum (binarize img) c.weight / (n : ℚ) = _
    have hlen : (binarize img).length = c.weight.length := by simp [binarize, hi, hw]
    have hbl : (binarize img).length = n := by simp [binarize, hi]
    rw [binarizedSum_eq_sum _ _ hlen, hbl]
    congr 1
    apply Finset.sum_congr rfl
    intro j _
    have hci : (computeCell n img c).input = binarize img := rfl
    have hb := binarize_getD img j
    rw [hci, hb]
    by_cases hp : img.getD j 0 ≠ 0
    · rw [if_pos hp]
      norm_num
    · rw [if_neg hp]
      norm_num

/-- Witness for C1 at the spec §8 scenario-1 input. -/
theorem computeCell_forward_witness :
    (wCell.weight.length = 4 ∧ wImg.length = 4) ∧
    ((computeCell 4 wImg wCell).input.length = 4 ∧
     (∀ j, j < 4 → (computeCell 4 wImg wCell).input.getD j 0
        = if wImg.getD j 0 ≠ 0 then 1 else 0) ∧
     (computeCell 4 wImg wCell).output
       = (∑ j ∈ Finset.range 4,
           if (computeCell 4 wImg wCell).input.getD j 0 = 1 then wCell.weight.getD j 0 else 0)
         / ((4 : ℕ) : ℚ)) :=
  ⟨⟨by decide, by decide⟩, computeCell_forward 4 wImg wCell (by decide) (by decide)⟩

/-- Claim C2: the training update adds `(target - output) * lrate` to the
weight at every index whose cached input is 1 and leaves the weight at every
index whose cached input is 0 unchanged; the weight vector keeps its length. -/
theorem updateCell_rule (t r : ℚ) (c : Cell) (j : ℕ)
    (hl : c.input.length = c.weight.length) :
    (updateCell t r c).weight.length = c.weight.length ∧
    (c.input.getD j 0 = 1 →
      (updateCell t r c).weight.getD j 0 = c.weight.getD j 0 + (t - c.output) * r) ∧
    (c.input.getD j 0 = 0 →
      (updateCell t r c).weight.getD j 0 = c.weight.getD j 0) := by
  have hpt := updateWeights_getD ((t - c.output) * r) c.input c.weight j hl
  refine ⟨updateWeights_length _ _ _ hl, ?_, ?_⟩
  · intro h1
    have hne : c.input.getD j 0 ≠ 0 := by rw [h1]; exact one_ne_zero
    show (updateWeights ((t - c.output) * r) c.input c.weight).getD j 0 = _
    rw [hpt, if_pos hne]
  · intro h0
    have hne : ¬c.input.getD j 0 ≠ 0 := by rw [h0]; simp
    show (updateWeights ((t - c.output) * r) c.input c.weight).getD j 0 = _
    rw [hpt, if_neg hne]

/-- Witness for C2 at a concrete cell with one active and one inactive input. -/
theorem updateCell_rule_witness :
    wCellB.input.length = wCellB.weight.length ∧
    ((updateCell 7 1 wCellB).weight.length = wCellB.weight.length ∧
     (wCellB.input.getD 0 0 = 1 →
       (updateCell 7 1 wCellB).weight.getD 0 0
         = wCellB.weight.getD 0 0 + (7 - wCellB.output) * 1) ∧
     (wCellB.input.getD 0 0 = 0 →
       (updateCell 7 1 wCellB).weight.getD 0 0 = wCellB.weight.getD 0 0)) :=
  ⟨by decide, updateCell_rule 7 1 wCellB 0 (by decide)⟩

/-- Claim C6: with a positive learning rate, one update step moves every
weight at an active input position in the direction of `target - output`
(the sign of the weight change equals the sign of `target - output` when they
differ), and leaves the weight unchanged when `target = output`. -/
theorem updateCell_direction (t r : ℚ) (c : Cell) (j : ℕ)
    (hr : 0 < r) (hl : c.input.length = c.weight.length)
    (hact : c.input.getD j 0 = 1) :
    (t ≠ c.output →
      sgn ((updateCell t r c).weight.getD j 0 - c.weight.getD j 0) = sgn (t - c.output)) ∧
    (t = c.output → (updateCell t r c).weight.getD j 0 = c.weight.getD j 0) := by
  have hne : c.input.getD j 0 ≠ 0 := by rw [hact]; exact one_ne_zero
  have hpt := updateWeights_getD ((t - c.output) * r) c.input c.weight j hl
  have hwj : (updateCell t r c).weight.getD j 0 = c.weight.getD j 0 + (t - c.output) * r := by
    show (updateWeights ((t - c.output) * r) c.input c.weight).getD j 0 = _
    rw [hpt, if_pos hne]
  constructor
  · intro hto
    rw [hwj]
    have hd : c.weight.getD j 0 + (t - c.output) * r - c.weight.getD j 0
        = (t - c.output) * r := by ring
    rw [hd]
    rcases lt_trichotomy (t - c.output) 0 with hlt | heq | hgt
    · have hm : (t - c.output) * r < 0 := mul_neg_of_neg_of_pos hlt hr
      have h1 : ¬(0:ℚ) < (t - c.output) * r := not_lt.mpr (le_of_lt hm)
      have h2 : ¬(0:ℚ) < t - c.output := not_lt.mpr (le_of_lt hlt)
      simp [sgn, h1, hm, h2, hlt]
    · exact absurd (by linarith : t = c.output) hto
    · have hm : (0:ℚ) < (t - c.output) * r := mul_pos hgt hr
      simp [sgn, hm, hgt]
  · intro hto
    rw [hwj, hto]
    ring

/-- Witness for C6 at a concrete active position with learning rate 1. -/
theorem updateCell_direction_witness :
    ((0:ℚ) < 1 ∧ wCellD.input.length = wCellD.weight.length ∧ wCellD.input.getD 0 0 = 1) ∧
    (((1:ℚ) ≠ wCellD.output →
       sgn ((updateCell 1 1 wCellD).weight.getD 0 0 - wCellD.weight.getD 0 0)
         = sgn (1 - wCellD.output)) ∧
     ((1:ℚ) = wCellD.output →
       (updateCell 1 1 wCellD).weight.getD 0 0 = wCellD.weight.getD 0 0)) :=
  ⟨⟨by decide, by decide, by decide⟩,
    updateCell_direction 1 1 wCellD 0 (by decide) (by decide) (by decide)⟩

/-- Claim C8: when every weight of the cell lies in `[0,1)` and the weight
vector has length `n`, the forward output lies in `[0,1]`. -/
theorem computeCell_output_bounds (n : ℕ) (img : List ℕ) (c : Cell)
    (hw : c.weight.length = n) (hb : ∀ w ∈ c.weight, 0 ≤ w ∧ w < 1) :
    0 ≤ (computeCell n img c).output ∧ (computeCell n img c).output ≤ 1 := by
  have h0 : 0 ≤ binarizedSum (binarize img) c.weight :=
    binarizedSum_nonneg _ _ (fun w hwm => (hb w hwm).1)
  have h1 : binarizedSum (binarize img) c.weight ≤ (c.weight.length : ℚ) :=
    binarizedSum_le_length _ _ hb
  show 0 ≤ binarizedSum (binarize img) c.weight / (n : ℚ)
      ∧ binarizedSum (binarize img) c.weight / (n : ℚ) ≤ 1
  rcases Nat.eq_zero_or_pos n with hn | hn
  · subst hn
    norm_num
  · have hnq : (0:ℚ) < (n:ℚ) := by exact_mod_cast hn
    constructor
    · exact div_nonneg h0 (le_of_lt hnq)
    · rw [div_le_one hnq]
      calc binarizedSum (binarize img) c.weight ≤ (c.weight.length : ℚ) := h1
        _ = (n : ℚ) := by rw [hw]

/-- Witness for C8 at a concrete cell with weights in `[0,1)`. -/
theorem computeCell_output_bounds_witness :
    (wCellC.weight.length = 2 ∧ ∀ w ∈ wCellC.weight, 0 ≤ w ∧ w < 1) ∧
    (0 ≤ (computeCell 2 [1, 1] wCellC).output ∧ (computeCell 2 [1, 1] wCellC).output ≤ 1) :=
  ⟨⟨by decide, by norm_num [wCellC]⟩,
    computeCell_output_bounds 2 [1, 1] wCellC (by decide) (by norm_num [wCellC])⟩

/-- Claim C9: the forward computation run twice in a row on the same cell and
image gives the same output, and it has no side effect on the weights. -/
theorem computeCell_idem (n : ℕ) (img : List ℕ) (c : Cell) :
    (computeCell n img c).weight = c.weight ∧
    (computeCell n img (computeCell n img c)).output = (computeCell n img c).output :=
  ⟨rfl, rfl⟩

/-- Claim C4: `getLayerPrediction` returns an index below the cell count C,
the output at that index is maximal among all cell outputs, every strictly
earlier index holds a strictly smaller output (so ties resolve to the lowest
index, the first maximum found in the scan over indices 0..C-1), and the
result depends only on the vector of outputs (determinism). -/
theorem getLayerPrediction_correct (l : Layer) (h : l.cell ≠ []) :
    getLayerPrediction l < l.cell.length ∧
    (∀ j, j < l.cell.length →
      (l.cell.map Cell.output).getD j 0
        ≤ (l.cell.map Cell.output).getD (getLayerPrediction l) 0) ∧
    (∀ j, j < getLayerPrediction l →
      (l.cell.map Cell.output).getD j 0
        < (l.cell.map Cell.output).getD (getLayerPrediction l) 0) ∧
    (∀ m : Layer, l.cell.map Cell.output = m.cell.map Cell.output →
      getLayerPrediction l = getLayerPrediction m) := by
  rcases houts : l.cell.map Cell.output with _ | ⟨o, os⟩
  · exact absurd (List.map_eq_nil_iff.mp houts) h
  · have hgl : getLayerPrediction l = predictScan os 1 0 o := by
      unfold getLayerPrediction
      rw [houts]
    have hlen : l.cell.length = os.length + 1 := by
      have hc := congrArg List.length houts
      simpa using hc
    rcases predictScan_spec os 1 0 o with ⟨heq, hle⟩ | ⟨k, hk, heq, hgt, hlt, hle⟩
    · have hp : getLayerPrediction l = 0 := by rw [hgl, heq]
      refine ⟨?_, ?_, ?_, ?_⟩
      · rw [hp, hlen]
        omega
      · intro j hj
        rw [hp]
        cases j with
        | zero => exact le_refl _
        | succ j =>
          simp only [List.getD_cons_succ, List.getD_cons_zero]
          exact hle _ (getD_mem_of_lt os j 0 (by rw [hlen] at hj; omega))
      · intro j hj
        rw [hp] at hj
        omega
      · intro m hm
        exact getLayerPrediction_congr l m (houts.trans hm)
    · have hp : getLayerPrediction l = k + 1 := by
        rw [hgl, heq]
        omega
      refine ⟨?_, ?_, ?_, ?_⟩
      · rw [hp, hlen]
        omega
      · intro j hj
        rw [hp]
        cases j with
        | zero =>
          simp only [List.getD_cons_zero, List.getD_cons_succ]
          exact le_of_lt hgt
        | succ j =>
          simp only [List.getD_cons_succ]
          exact hle j (by rw [hlen] at hj; omega)
      · intro j hj
        rw [hp]
        rw [hp] at hj
        cases j with
        | zero =>
          simp only [List.getD_cons_zero, List.getD_cons_succ]
          exact hgt
        | succ j =>
          simp only [List.getD_cons_succ]
          exact hlt j (by omega)
      · intro m hm
        exact getLayerPrediction_congr l m (houts.trans hm)

/-- Witness for C4 at a three-cell layer with a tied maximum. -/
theorem getLayerPrediction_correct_witness :
    wLayer.cell ≠ [] ∧
    (getLayerPrediction wLayer < wLayer.cell.length ∧
     (∀ j, j < wLayer.cell.length →
       (wLayer.cell.map Cell.output).getD j 0
         ≤ (wLayer.cell.map Cell.output).getD (getLayerPrediction wLayer) 0) ∧
     (∀ j, j < getLayerPrediction wLayer →
       (wLayer.cell.map Cell.output).getD j 0
         < (wLayer.cell.map Cell.output).getD (getLayerPrediction wLayer) 0) ∧
     (∀ m : Layer, wLayer.cell.map Cell.output = m.cell.map Cell.output →
       getLayerPrediction wLayer = getLayerPrediction m)) :=
  ⟨by decide, getLayerPrediction_correct wLayer (by decide)⟩

/-- Claim C3: a full evaluation pass over any sample sequence performs no
weight update: the list of per-cell weight vectors after `testLayer` is
identical to the one before. -/
theorem testLayer_preserves_weights (n : ℕ) (samples : List Sample) (l : Layer) :
    ((testLayer n samples l).1).cell.map Cell.weight = l.cell.map Cell.weight :=
  testFold_weights n samples (l, 0)

/-- Claim C5: for a completed training or evaluation pass of `T` samples with
`E` mismatches, the reported success rate is `100 - E/T*100` and `0 ≤ E ≤ T`. -/
theorem successRate_correct (n : ℕ) (lrate : ℚ)
    (trainSamples testSamples : List Sample) (l : Layer) :
    (0 ≤ (trainLayer n lrate trainSamples l).2 ∧
     (trainLayer n lrate trainSamples l).2 ≤ trainSamples.length ∧
     successRate (trainLayer n lrate trainSamples l).2 trainSamples.length
       = 100 - ((trainLayer n lrate trainSamples l).2 : ℚ) / (trainSamples.length : ℚ) * 100) ∧
    (0 ≤ (testLayer n testSamples l).2 ∧
     (testLayer n testSamples l).2 ≤ testSamples.length ∧
     successRate (testLayer n testSamples l).2 testSamples.length
       = 100 - ((testLayer n testSamples l).2 : ℚ) / (testSamples.length : ℚ) * 100) := by
  refine ⟨⟨Nat.zero_le _, ?_, rfl⟩, ⟨Nat.zero_le _, ?_, rfl⟩⟩
  · have hb := foldl_err_bound (trainStep n lrate)
      (fun st s => by dsimp [trainStep]; split <;> omega) trainSamples (l, 0)
    simpa [trainLayer] using hb
  · have hb := foldl_err_bound (testStep n)
      (fun st s => by dsimp [testStep]; split <;> omega) testSamples (l, 0)
    simpa [testLayer] using hb

/-- Counterexample to claim C7 as stated: an evaluation pass does write cell
fields; here the single cell's cached input changes from `[0]` to `[1]`. -/
theorem testLayer_writes_input_field :
    (((testLayer 1 [⟨[1], 0⟩] ⟨[⟨[0], [1], 0⟩]⟩).1).cell.getD 0 ⟨[], [], 0⟩).input
      ≠ ((⟨[⟨[0], [1], 0⟩]⟩ : Layer).cell.getD 0 ⟨[], [], 0⟩).input := by
  decide

/-- Claim C7 (amended): the weights are read-only during evaluation — an
evaluation pass leaves every cell's weight vector unchanged — although the
cached input and output fields are overwritten by the forward computation. -/
theorem testLayer_weights_readonly (n : ℕ) (samples : List Sample) (l : Layer)
    (i : ℕ) (d : Cell) :
    (((testLayer n samples l).1).cell.getD i d).weight = (l.cell.getD i d).weight := by
  have h := testFold_weights n samples (l, 0)
  have h1 := getD_map Cell.weight ((testLayer n samples l).1).cell i d
  have h2 := getD_map Cell.weight l.cell i d
  rw [← h1, ← h2]
  exact congrArg (fun xs => xs.getD i d.weight) h

/-- Claim C10: the update step writes only the weight array — the cached
input and the output field are unchanged — and hence the prediction compared
against the label inside a training iteration equals the prediction of the
pure forward (evaluation) step on the same layer, i.e. it reflects the
weights as they were before that sample's update. -/
theorem updateCell_frame (t r : ℚ) (c : Cell) (n : ℕ) (lrate : ℚ) (s : Sample) (l : Layer) :
    (updateCell t r c).input = c.input ∧
    (updateCell t r c).output = c.output ∧
    getLayerPrediction (trainSample n lrate s l) = getLayerPrediction (testSample n s l) := by
  refine ⟨rfl, rfl, ?_⟩
  apply getLayerPrediction_congr
  show (trainCells n lrate s.pixel l.cell (getTargetOutput l.cell.length s.lbl)).map Cell.output
      = (l.cell.map (computeCell n s.pixel)).map Cell.output
  exact trainCells_outputs n lrate s.pixel l.cell _ (getTargetOutput_length _ _).symm

end Mnist1lnn
